import Mathlib

/-!
Verification of the Adaptive Resource Allocation Simulator scheduler
(`src/project.py`), shallowly embedded in Lean 4.

Machine floats of the Python source are modelled as exact rationals (ℚ);
the Python dict `processes` (insertion ordered) as a `List Process`.
-/

/-- The four process states of `Process.state` in `project.py`
(`Ready / Waiting / Running / Completed`). -/
inductive PState
  | Ready
  | Waiting
  | Running
  | Completed
deriving DecidableEq, Repr

/-- One simulated workload, as in the `Process` class (`project.py` lines
19-27).  `allocated_cpu` is not a stored field in the source: it is the
per-tick pairing kept in `running_procs`, so it is carried alongside the
record in the tick's output rather than inside it. -/
structure Process where
  pid : Nat
  name : String
  cpu_request : ℚ
  mem_request : ℚ
  progress : ℚ
  state : PState
deriving DecidableEq, Repr

/-- `Process.__init__`: a fresh process starts with `progress = 0` and
`state = "Ready"`. -/
def Process.init (pid : Nat) (name : String) (cpu_request mem_request : ℚ) :
    Process :=
  { pid := pid, name := name, cpu_request := cpu_request,
    mem_request := mem_request, progress := 0, state := PState.Ready }

/-- `self.total_memory_mb = 2048` in `ResourceSchedulerGUI.__init__`. -/
def total_memory_mb : ℚ := 2048

/-- `scale = 0.05*1.5` in `scheduler_loop` (the progress-rate constant). -/
def scale : ℚ := 0.05 * 1.5

/-- First pass of `scheduler_loop` ("Determine states based on memory",
lines 246-254): walk the snapshot carrying the running memory total
`mem_used`; a Completed process is skipped, an overflowing one is set
Waiting, otherwise the process is set Ready and its memory counted. -/
def memPass (mem_used : ℚ) : List Process → List Process
  | [] => []
  | p :: rest =>
    if p.state = PState.Completed then
      p :: memPass mem_used rest
    else if mem_used + p.mem_request > total_memory_mb then
      { p with state := PState.Waiting } :: memPass mem_used rest
    else
      { p with state := PState.Ready } :: memPass (mem_used + p.mem_request) rest

/-- Second pass of `scheduler_loop` ("Allocate CPU to Ready processes",
lines 256-265): walk the Ready processes (the `ready_queue`) carrying the
running CPU total `cpu_allocated`; a fitting process is set Running with
its full request as the allocation recorded in `running_procs`, otherwise
it stays Ready.  Each process is returned paired with its allocation for
this tick (0 when not granted). -/
def cpuPass (cpu_allocated : ℚ) : List Process → List (Process × ℚ)
  | [] => []
  | p :: rest =>
    if p.state = PState.Ready then
      if cpu_allocated + p.cpu_request ≤ 100 then
        ({ p with state := PState.Running }, p.cpu_request) ::
          cpuPass (cpu_allocated + p.cpu_request) rest
      else
        (p, 0) :: cpuPass cpu_allocated rest
    else
      (p, 0) :: cpuPass cpu_allocated rest

/-- Third pass of `scheduler_loop` ("Update progress", lines 267-272):
every process of `running_procs` (exactly the Running ones) advances its
progress by `allocation * scale`, clamped at 100, and becomes Completed
when the clamped progress reaches 100. -/
def progressPass : List (Process × ℚ) → List (Process × ℚ)
  | [] => []
  | (p, alloc) :: rest =>
    if p.state = PState.Running then
      let prog := min 100 (p.progress + alloc * scale)
      ({ p with progress := prog,
                state := if prog ≥ 100 then PState.Completed
                         else PState.Running }, alloc) :: progressPass rest
    else
      (p, alloc) :: progressPass rest

/-- One full scheduling tick over a snapshot, as one iteration of the
`while True` body of `scheduler_loop`: memory admission, CPU grant, then
progress update.  The result pairs each updated process with the CPU
allocated to it this tick (the value reported in the table row). -/
def tick (ps : List Process) : List (Process × ℚ) :=
  progressPass (cpuPass 0 (memPass 0 ps))

/-- The processes after one tick, dropping the per-tick allocations. -/
def tickFst (ps : List Process) : List Process :=
  (tick ps).map Prod.fst

/-- "Memory Used" display value of a table row (`scheduler_loop` line 276):
`mem_request` if the state is Ready or Running, else 0. -/
def memDisplay (p : Process) : ℚ :=
  if p.state = PState.Ready ∨ p.state = PState.Running then p.mem_request else 0

/-- `update_system_usage` line 304: total CPU in use, the sum of
`cpu_request` over Running processes. -/
def totalCpu (ps : List Process) : ℚ :=
  ((ps.filter (fun p => p.state = PState.Running)).map
    (fun p => p.cpu_request)).sum

/-- `update_system_usage` line 305: total memory in use, the sum of
`mem_request` over Ready and Running processes. -/
def totalMem (ps : List Process) : ℚ :=
  ((ps.filter (fun p => p.state = PState.Ready ∨ p.state = PState.Running)).map
    (fun p => p.mem_request)).sum

/-! ### Spec-side description of one tick (§4.2 of the spec)

These definitions follow the spec's wording, to be compared with the
code-side `tick`: the admission pass admits a process exactly when
`running_total + mem_request <= 2048`, the CPU-grant pass grants exactly
when `running_total_cpu + cpu_request <= 100`, and the progress pass
advances every Running process by `allocated_cpu * 0.075`, clamped to
100, completing it when the clamp reaches 100. -/

/-- Spec admission pass (spec §4.2 step 1), written from the spec's words. -/
def specAdmit (running_total : ℚ) : List Process → List Process
  | [] => []
  | p :: rest =>
    if p.state = PState.Completed then
      p :: specAdmit running_total rest
    else if running_total + p.mem_request ≤ 2048 then
      { p with state := PState.Ready } :: specAdmit (running_total + p.mem_request) rest
    else
      { p with state := PState.Waiting } :: specAdmit running_total rest

/-- Spec CPU-grant pass (spec §4.2 step 2), written from the spec's words:
an admitted (Ready) process is granted its full request when it fits,
otherwise left Ready with allocation 0. -/
def specGrant (running_total_cpu : ℚ) : List Process → List (Process × ℚ)
  | [] => []
  | p :: rest =>
    if p.state = PState.Ready then
      if running_total_cpu + p.cpu_request ≤ 100 then
        ({ p with state := PState.Running }, p.cpu_request) ::
          specGrant (running_total_cpu + p.cpu_request) rest
      else
        (p, 0) :: specGrant running_total_cpu rest
    else
      (p, 0) :: specGrant running_total_cpu rest

/-- Spec progress pass (spec §4.2 step 3 with the §6 rate constant
`0.075`), written from the spec's words. -/
def specProgress : List (Process × ℚ) → List (Process × ℚ)
  | [] => []
  | (p, alloc) :: rest =>
    if p.state = PState.Running then
      let prog := min 100 (p.progress + alloc * 0.075)
      ({ p with progress := prog,
                state := if prog ≥ 100 then PState.Completed
                         else PState.Running }, alloc) :: specProgress rest
    else
      (p, alloc) :: specProgress rest

/-- One tick as the spec §4.2 describes it. -/
def specTick (ps : List Process) : List (Process × ℚ) :=
  specProgress (specGrant 0 (specAdmit 0 ps))

/-! ### Registry (process table, id assignment, reset) -/

/-- Registry part of `ResourceSchedulerGUI` state: the insertion-ordered
process table `self.processes` and the id counter `self.next_pid`. -/
structure RegState where
  processes : List Process
  next_pid : Nat
deriving DecidableEq, Repr

/-- Fresh registry (`__init__`): empty table, `next_pid = 1001`. -/
def initState : RegState := { processes := [], next_pid := 1001 }

/-- `add_process` (lines 182-198), the registry mutation inside the lock:
assign `pid = next_pid`, increment `next_pid`, insert a fresh process.
Returns the new state and the assigned pid. -/
def add_process (s : RegState) (name : String) (cpu_req mem_req : ℚ) :
    RegState × Nat :=
  ({ processes := s.processes ++ [Process.init s.next_pid name cpu_req mem_req],
     next_pid := s.next_pid + 1 }, s.next_pid)

/-- `delete_selected_process` (line 216): `self.processes.pop(pid, None)`.
The id counter is untouched. -/
def removeProcess (s : RegState) (pid : Nat) : RegState :=
  { s with processes := s.processes.filter (fun p => p.pid ≠ pid) }

/-- `reset_all` (lines 223-231): clear the table and restore
`next_pid = 1001`. -/
def reset_all (_s : RegState) : RegState :=
  { processes := [], next_pid := 1001 }

/-- The three external registry events of the spec (§6). -/
inductive Event
  | Add (name : String) (cpu_req mem_req : ℚ)
  | Remove (pid : Nat)
  | Reset
deriving DecidableEq

/-- Apply one event to the registry; an `Add` also reports its new id. -/
def applyEvent (s : RegState) : Event → RegState × Option Nat
  | Event.Add name cpu_req mem_req =>
    let r := add_process s name cpu_req mem_req
    (r.1, some r.2)
  | Event.Remove pid => (removeProcess s pid, none)
  | Event.Reset => (reset_all s, none)

/-- Run a sequence of events, collecting the ids assigned by the `Add`s
in order. -/
def runEvents (s : RegState) : List Event → RegState × List Nat
  | [] => (s, [])
  | e :: es =>
    let r := applyEvent s e
    let rest := runEvents r.1 es
    (rest.1, r.2.toList ++ rest.2)

/-- Number of `Add` events in a sequence. -/
def countAdds (es : List Event) : Nat :=
  (es.filter (fun e => match e with | Event.Add _ _ _ => true | _ => false)).length

/-! ### Basic structural lemmas about the passes -/

theorem memPass_length (m : ℚ) (ps : List Process) :
    (memPass m ps).length = ps.length := by
  induction ps generalizing m with
  | nil => rfl
  | cons p rest ih =>
    by_cases h1 : p.state = PState.Completed <;>
      by_cases h2 : m + p.mem_request > total_memory_mb <;>
        simp [memPass, h1, h2, ih]

theorem cpuPass_length (c : ℚ) (l : List Process) :
    (cpuPass c l).length = l.length := by
  induction l generalizing c with
  | nil => rfl
  | cons p rest ih =>
    by_cases h1 : p.state = PState.Ready <;>
      by_cases h2 : c + p.cpu_request ≤ 100 <;>
        simp [cpuPass, h1, h2, ih]

theorem progressPass_length (l : List (Process × ℚ)) :
    (progressPass l).length = l.length := by
  induction l with
  | nil => rfl
  | cons pa rest ih =>
    obtain ⟨p, a⟩ := pa
    by_cases h1 : p.state = PState.Running <;> simp [progressPass, h1, ih]

theorem tick_length (ps : List Process) : (tick ps).length = ps.length := by
  simp [tick, progressPass_length, cpuPass_length, memPass_length]

theorem tickFst_length (ps : List Process) : (tickFst ps).length = ps.length := by
  simp [tickFst, tick_length]

/-- Pointwise reading of a `Forall₂` via optional indexing. -/
theorem forall₂_getElem_some {α β : Type} {R : α → β → Prop}
    {l₁ : List α} {l₂ : List β} (h : List.Forall₂ R l₁ l₂) :
    ∀ (i : Nat) (a : α) (b : β), l₁[i]? = some a → l₂[i]? = some b → R a b := by
  induction h with
  | nil => intro i a b h₁ h₂; simp at h₁
  | cons hR _ ih =>
    intro i a b h₁ h₂
    cases i with
    | zero =>
      simp only [List.getElem?_cons_zero, Option.some.injEq] at h₁ h₂
      subst h₁; subst h₂; exact hR
    | succ n =>
      simp only [List.getElem?_cons_succ] at h₁ h₂
      exact ih n a b h₁ h₂

/-! ### The code's tick equals the spec's tick (claim C1) -/

theorem memPass_eq_specAdmit (m : ℚ) (ps : List Process) :
    memPass m ps = specAdmit m ps := by
  induction ps generalizing m with
  | nil => rfl
  | cons p rest ih =>
    by_cases h1 : p.state = PState.Completed
    · simp [memPass, specAdmit, h1, ih]
    · rcases le_or_lt (m + p.mem_request) 2048 with h2 | h2
      · simp [memPass, specAdmit, h1, h2, total_memory_mb, not_lt.mpr h2, ih]
      · simp [memPass, specAdmit, h1, h2, total_memory_mb, not_le.mpr h2, ih]

theorem cpuPass_eq_specGrant (c : ℚ) (l : List Process) :
    cpuPass c l = specGrant c l := by
  induction l generalizing c with
  | nil => rfl
  | cons p rest ih =>
    by_cases h1 : p.state = PState.Ready <;>
      by_cases h2 : c + p.cpu_request ≤ 100 <;>
        simp [cpuPass, specGrant, h1, h2, ih]

theorem progressPass_eq_specProgress (l : List (Process × ℚ)) :
    progressPass l = specProgress l := by
  have hs : scale = 0.075 := by norm_num [scale]
  induction l with
  | nil => rfl
  | cons pa rest ih =>
    obtain ⟨p, a⟩ := pa
    by_cases h1 : p.state = PState.Running <;>
      simp [progressPass, specProgress, h1, hs, ih]

/-- C1: One scheduling tick is the two-pass greedy of spec §4.2: the
admission pass sets a non-Completed process Waiting exactly when its
memory request on top of the running total of earlier-admitted processes
would exceed 2048 (Ready and counted otherwise), and the CPU-grant pass
sets an admitted process Running with its full `cpu_request` allocated
exactly when the running CPU total stays at most 100 (otherwise it stays
Ready with allocation 0).  Formally: the code's tick coincides with the
tick written from the spec's wording. -/
theorem tick_eq_specTick (ps : List Process) : tick ps = specTick ps := by
  simp [tick, specTick, memPass_eq_specAdmit, cpuPass_eq_specGrant,
    progressPass_eq_specProgress]

/-! ### Memory accounting lemmas (claim C2) -/

theorem totalMem_cons (p : Process) (ps : List Process) :
    totalMem (p :: ps) =
      (if p.state = PState.Ready ∨ p.state = PState.Running
       then p.mem_request else 0) + totalMem ps := by
  by_cases h : p.state = PState.Ready ∨ p.state = PState.Running <;>
    simp [totalMem, List.filter_cons, h]

theorem totalMem_memPass (ps : List Process) :
    ∀ m : ℚ, m ≤ total_memory_mb → totalMem (memPass m ps) + m ≤ total_memory_mb := by
  induction ps with
  | nil => intro m hm; simpa [totalMem, memPass] using hm
  | cons p rest ih =>
    intro m hm
    by_cases h1 : p.state = PState.Completed
    · have hmp : memPass m (p :: rest) = p :: memPass m rest := by
        simp [memPass, h1]
      rw [hmp, totalMem_cons, if_neg (by rw [h1]; simp)]
      simpa using ih m hm
    · by_cases h2 : m + p.mem_request > total_memory_mb
      · have hmp : memPass m (p :: rest) =
            { p with state := PState.Waiting } :: memPass m rest := by
          simp [memPass, h1, h2]
        rw [hmp, totalMem_cons, if_neg (by simp)]
        simpa using ih m hm
      · have hmp : memPass m (p :: rest) =
            { p with state := PState.Ready } :: memPass (m + p.mem_request) rest := by
          simp [memPass, h1, h2]
        have hm' : m + p.mem_request ≤ total_memory_mb := not_lt.mp h2
        have hrec := ih (m + p.mem_request) hm'
        rw [hmp, totalMem_cons, if_pos (by simp)]
        dsimp only
        linarith

theorem totalMem_cpuPass (l : List Process) :
    ∀ c : ℚ, totalMem ((cpuPass c l).map Prod.fst) = totalMem l := by
  induction l with
  | nil => intro c; rfl
  | cons p rest ih =>
    intro c
    by_cases h1 : p.state = PState.Ready
    · by_cases h2 : c + p.cpu_request ≤ 100
      · have hcp : cpuPass c (p :: rest) =
            ({ p with state := PState.Running }, p.cpu_request) ::
              cpuPass (c + p.cpu_request) rest := by
          simp [cpuPass, h1, h2]
        rw [hcp, List.map_cons, totalMem_cons, totalMem_cons,
          if_pos (by simp), if_pos (by simp [h1]), ih]
      · have hcp : cpuPass c (p :: rest) = (p, 0) :: cpuPass c rest := by
          simp [cpuPass, h1, h2]
        rw [hcp, List.map_cons, totalMem_cons, totalMem_cons, ih]
    · have hcp : cpuPass c (p :: rest) = (p, 0) :: cpuPass c rest := by
        simp [cpuPass, h1]
      rw [hcp, List.map_cons, totalMem_cons, totalMem_cons, ih]

theorem mem_nonneg_cpuPass (l : List Process)
    (h : ∀ p ∈ l, 0 ≤ p.mem_request) :
    ∀ c : ℚ, ∀ pa ∈ cpuPass c l, 0 ≤ pa.1.mem_request := by
  induction l with
  | nil => intro c pa hpa; simp [cpuPass] at hpa
  | cons p rest ih =>
    intro c pa hpa
    have hp : 0 ≤ p.mem_request := h p (by simp)
    have hrest : ∀ q ∈ rest, 0 ≤ q.mem_request := fun q hq => h q (by simp [hq])
    by_cases h1 : p.state = PState.Ready
    · by_cases h2 : c + p.cpu_request ≤ 100
      · rw [show cpuPass c (p :: rest) =
            ({ p with state := PState.Running }, p.cpu_request) ::
              cpuPass (c + p.cpu_request) rest from by simp [cpuPass, h1, h2]] at hpa
        rcases List.mem_cons.mp hpa with h' | h'
        · rw [h']; exact hp
        · exact ih hrest _ pa h'
      · rw [show cpuPass c (p :: rest) = (p, 0) :: cpuPass c rest from by
          simp [cpuPass, h1, h2]] at hpa
        rcases List.mem_cons.mp hpa with h' | h'
        · rw [h']; exact hp
        · exact ih hrest _ pa h'
    · rw [show cpuPass c (p :: rest) = (p, 0) :: cpuPass c rest from by
        simp [cpuPass, h1]] at hpa
      rcases List.mem_cons.mp hpa with h' | h'
      · rw [h']; exact hp
      · exact ih hrest _ pa h'

theorem totalMem_progressPass (l : List (Process × ℚ))
    (h : ∀ pa ∈ l, 0 ≤ pa.1.mem_request) :
    totalMem ((progressPass l).map Prod.fst) ≤ totalMem (l.map Prod.fst) := by
  induction l with
  | nil => simp [progressPass]
  | cons pa rest ih =>
    obtain ⟨p, a⟩ := pa
    have hp : 0 ≤ p.mem_request := h (p, a) (by simp)
    have hrest : ∀ qa ∈ rest, 0 ≤ qa.1.mem_request := fun qa hqa => h qa (by simp [hqa])
    have ihr := ih hrest
    by_cases h1 : p.state = PState.Running
    · by_cases h2 : 100 ≤ p.progress + a * scale
      · rw [show progressPass ((p, a) :: rest) =
            ({ p with progress := min 100 (p.progress + a * scale),
                      state := PState.Completed }, a) ::
              progressPass rest from by simp [progressPass, h1, le_min_iff, h2]]
        rw [List.map_cons, List.map_cons, totalMem_cons, totalMem_cons,
          if_neg (by simp), if_pos (by simp [h1])]
        dsimp only
        linarith
      · rw [show progressPass ((p, a) :: rest) =
            ({ p with progress := min 100 (p.progress + a * scale),
                      state := PState.Running }, a) ::
              progressPass rest from by simp [progressPass, h1, le_min_iff, h2]]
        rw [List.map_cons, List.map_cons, totalMem_cons, totalMem_cons,
          if_pos (by simp), if_pos (by simp [h1])]
        dsimp only
        linarith
    · rw [show progressPass ((p, a) :: rest) = (p, a) :: progressPass rest from by
        simp [progressPass, h1]]
      rw [List.map_cons, List.map_cons, totalMem_cons, totalMem_cons]
      linarith

theorem mem_nonneg_memPass (ps : List Process)
    (h : ∀ p ∈ ps, 0 ≤ p.mem_request) :
    ∀ m : ℚ, ∀ q ∈ memPass m ps, 0 ≤ q.mem_request := by
  induction ps with
  | nil => intro m q hq; simp [memPass] at hq
  | cons p rest ih =>
    intro m q hq
    have hp : 0 ≤ p.mem_request := h p (by simp)
    have hrest : ∀ r ∈ rest, 0 ≤ r.mem_request := fun r hr => h r (by simp [hr])
    by_cases h1 : p.state = PState.Completed
    · rw [show memPass m (p :: rest) = p :: memPass m rest from by
        simp [memPass, h1]] at hq
      rcases List.mem_cons.mp hq with h' | h'
      · rw [h']; exact hp
      · exact ih hrest m q h'
    · by_cases h2 : m + p.mem_request > total_memory_mb
      · rw [show memPass m (p :: rest) =
            { p with state := PState.Waiting } :: memPass m rest from by
          simp [memPass, h1, h2]] at hq
        rcases List.mem_cons.mp hq with h' | h'
        · rw [h']; exact hp
        · exact ih hrest m q h'
      · rw [show memPass m (p :: rest) =
            { p with state := PState.Ready } ::
              memPass (m + p.mem_request) rest from by
          simp [memPass, h1, h2]] at hq
        rcases List.mem_cons.mp hq with h' | h'
        · rw [h']; exact hp
        · exact ih hrest (m + p.mem_request) q h'

/-- C2: after any scheduling tick, the memory requests of the processes
left in state Ready or Running sum to at most 2048 (the memory cap),
provided the snapshot's memory requests are nonnegative (as the Add
boundary guarantees: the memory slider ranges over 0-2048). -/
theorem tick_memory_cap (ps : List Process)
    (h : ∀ p ∈ ps, 0 ≤ p.mem_request) :
    totalMem (tickFst ps) ≤ 2048 := by
  have h1 : totalMem (memPass 0 ps) ≤ total_memory_mb := by
    have := totalMem_memPass ps 0 (by norm_num [total_memory_mb])
    linarith
  have h2 : totalMem ((cpuPass 0 (memPass 0 ps)).map Prod.fst) =
      totalMem (memPass 0 ps) := totalMem_cpuPass (memPass 0 ps) 0
  have hmn : ∀ pa ∈ cpuPass 0 (memPass 0 ps), 0 ≤ pa.1.mem_request :=
    mem_nonneg_cpuPass (memPass 0 ps) (mem_nonneg_memPass ps h 0) 0
  have h3 : totalMem ((progressPass (cpuPass 0 (memPass 0 ps))).map Prod.fst) ≤
      totalMem ((cpuPass 0 (memPass 0 ps)).map Prod.fst) :=
    totalMem_progressPass _ hmn
  have : totalMem (tickFst ps) ≤ totalMem (memPass 0 ps) := by
    rw [tickFst, tick]; linarith
  have h4 : total_memory_mb = 2048 := by norm_num [total_memory_mb]
  linarith

/-- Witness for C2 at a concrete snapshot. -/
theorem tick_memory_cap_witness :
    totalMem (tickFst [Process.init 1001 "A" 10 1500,
      Process.init 1002 "B" 10 700]) ≤ 2048 :=
  tick_memory_cap _ (by
    intro p hp
    rcases List.mem_cons.mp hp with h | h
    · rw [h]; norm_num [Process.init]
    · rcases List.mem_cons.mp h with h' | h'
      · rw [h']; norm_num [Process.init]
      · simp at h')

/-! ### CPU accounting lemmas (claim C3) -/

theorem cpuPass_allocSum (l : List Process) :
    ∀ c : ℚ, c ≤ 100 → ((cpuPass c l).map Prod.snd).sum + c ≤ 100 := by
  induction l with
  | nil => intro c hc; simpa [cpuPass] using hc
  | cons p rest ih =>
    intro c hc
    by_cases h1 : p.state = PState.Ready
    · by_cases h2 : c + p.cpu_request ≤ 100
      · rw [show cpuPass c (p :: rest) =
            ({ p with state := PState.Running }, p.cpu_request) ::
              cpuPass (c + p.cpu_request) rest from by simp [cpuPass, h1, h2]]
        have := ih (c + p.cpu_request) h2
        rw [List.map_cons, List.sum_cons]
        linarith
      · rw [show cpuPass c (p :: rest) = (p, 0) :: cpuPass c rest from by
          simp [cpuPass, h1, h2]]
        have := ih c hc
        rw [List.map_cons, List.sum_cons]
        dsimp only
        linarith
    · rw [show cpuPass c (p :: rest) = (p, 0) :: cpuPass c rest from by
        simp [cpuPass, h1]]
      have := ih c hc
      rw [List.map_cons, List.sum_cons]
      dsimp only
      linarith

theorem progressPass_map_snd (l : List (Process × ℚ)) :
    (progressPass l).map Prod.snd = l.map Prod.snd := by
  induction l with
  | nil => rfl
  | cons pa rest ih =>
    obtain ⟨p, a⟩ := pa
    by_cases h1 : p.state = PState.Running <;> simp [progressPass, h1, ih]

theorem cpu_nonneg_memPass (ps : List Process)
    (h : ∀ p ∈ ps, 0 ≤ p.cpu_request) :
    ∀ m : ℚ, ∀ q ∈ memPass m ps, 0 ≤ q.cpu_request := by
  induction ps with
  | nil => intro m q hq; simp [memPass] at hq
  | cons p rest ih =>
    intro m q hq
    have hp : 0 ≤ p.cpu_request := h p (by simp)
    have hrest : ∀ r ∈ rest, 0 ≤ r.cpu_request := fun r hr => h r (by simp [hr])
    by_cases h1 : p.state = PState.Completed
    · rw [show memPass m (p :: rest) = p :: memPass m rest from by
        simp [memPass, h1]] at hq
      rcases List.mem_cons.mp hq with h' | h'
      · rw [h']; exact hp
      · exact ih hrest m q h'
    · by_cases h2 : m + p.mem_request > total_memory_mb
      · rw [show memPass m (p :: rest) =
            { p with state := PState.Waiting } :: memPass m rest from by
          simp [memPass, h1, h2]] at hq
        rcases List.mem_cons.mp hq with h' | h'
        · rw [h']; exact hp
        · exact ih hrest m q h'
      · rw [show memPass m (p :: rest) =
            { p with state := PState.Ready } ::
              memPass (m + p.mem_request) rest from by
          simp [memPass, h1, h2]] at hq
        rcases List.mem_cons.mp hq with h' | h'
        · rw [h']; exact hp
        · exact ih hrest (m + p.mem_request) q h'

theorem cpuPass_snd_nonneg (l : List Process)
    (h : ∀ p ∈ l, 0 ≤ p.cpu_request) :
    ∀ c : ℚ, ∀ pa ∈ cpuPass c l, 0 ≤ pa.2 := by
  induction l with
  | nil => intro c pa hpa; simp [cpuPass] at hpa
  | cons p rest ih =>
    intro c pa hpa
    have hp : 0 ≤ p.cpu_request := h p (by simp)
    have hrest : ∀ q ∈ rest, 0 ≤ q.cpu_request := fun q hq => h q (by simp [hq])
    by_cases h1 : p.state = PState.Ready
    · by_cases h2 : c + p.cpu_request ≤ 100
      · rw [show cpuPass c (p :: rest) =
            ({ p with state := PState.Running }, p.cpu_request) ::
              cpuPass (c + p.cpu_request) rest from by simp [cpuPass, h1, h2]] at hpa
        rcases List.mem_cons.mp hpa with h' | h'
        · rw [h']; exact hp
        · exact ih hrest _ pa h'
      · rw [show cpuPass c (p :: rest) = (p, 0) :: cpuPass c rest from by
          simp [cpuPass, h1, h2]] at hpa
        rcases List.mem_cons.mp hpa with h' | h'
        · rw [h']
        · exact ih hrest _ pa h'
    · rw [show cpuPass c (p :: rest) = (p, 0) :: cpuPass c rest from by
        simp [cpuPass, h1]] at hpa
      rcases List.mem_cons.mp hpa with h' | h'
      · rw [h']
      · exact ih hrest _ pa h'

theorem progressPass_snd_nonneg (l : List (Process × ℚ))
    (h : ∀ pa ∈ l, 0 ≤ pa.2) :
    ∀ qb ∈ progressPass l, 0 ≤ qb.2 := by
  intro qb hqb
  have hmem : qb.2 ∈ (progressPass l).map Prod.snd := List.mem_map_of_mem _ hqb
  rw [progressPass_map_snd] at hmem
  obtain ⟨pa, hpa, hEq⟩ := List.mem_map.mp hmem
  rw [← hEq]
  exact h pa hpa

theorem sum_filter_snd_le (pr : Process × ℚ → Bool) (l : List (Process × ℚ))
    (h : ∀ pa ∈ l, 0 ≤ pa.2) :
    ((l.filter pr).map Prod.snd).sum ≤ (l.map Prod.snd).sum := by
  induction l with
  | nil => simp
  | cons pa rest ih =>
    have hp : 0 ≤ pa.2 := h pa (by simp)
    have hrest : ∀ qa ∈ rest, 0 ≤ qa.2 := fun qa hqa => h qa (by simp [hqa])
    have ihr := ih hrest
    by_cases hpr : pr pa
    · rw [List.filter_cons, if_pos (by simpa using hpr)]
      rw [List.map_cons, List.map_cons, List.sum_cons, List.sum_cons]
      linarith
    · rw [List.filter_cons, if_neg (by simpa using hpr)]
      rw [List.map_cons, List.sum_cons]
      linarith

/-- C3: after any scheduling tick, the CPU allocations handed out that
tick to the processes it left Running sum to at most 100 (the CPU cap),
provided the snapshot's CPU requests are nonnegative (as the Add boundary
guarantees: the CPU slider ranges over 1-100). -/
theorem tick_cpu_cap (ps : List Process)
    (h : ∀ p ∈ ps, 0 ≤ p.cpu_request) :
    (((tick ps).filter (fun pa => pa.1.state = PState.Running)).map
      Prod.snd).sum ≤ 100 := by
  have hs : ((cpuPass 0 (memPass 0 ps)).map Prod.snd).sum ≤ 100 := by
    have := cpuPass_allocSum (memPass 0 ps) 0 (by norm_num)
    linarith
  have hnn : ∀ pa ∈ tick ps, 0 ≤ pa.2 := by
    rw [tick]
    exact progressPass_snd_nonneg _
      (cpuPass_snd_nonneg (memPass 0 ps) (cpu_nonneg_memPass ps h 0) 0)
  have hfil := sum_filter_snd_le
    (fun pa => pa.1.state = PState.Running) (tick ps) hnn
  have hall : ((tick ps).map Prod.snd).sum =
      ((cpuPass 0 (memPass 0 ps)).map Prod.snd).sum := by
    rw [tick, progressPass_map_snd]
  calc (((tick ps).filter (fun pa => pa.1.state = PState.Running)).map
      Prod.snd).sum ≤ ((tick ps).map Prod.snd).sum := hfil
    _ ≤ 100 := by rw [hall]; exact hs

/-- Witness for C3 at a concrete snapshot. -/
theorem tick_cpu_cap_witness :
    (((tick [Process.init 1001 "A" 70 0, Process.init 1002 "B" 50 0]).filter
      (fun pa => pa.1.state = PState.Running)).map Prod.snd).sum ≤ 100 :=
  tick_cpu_cap _ (by
    intro p hp
    rcases List.mem_cons.mp hp with h | h
    · rw [h]; norm_num [Process.init]
    · rcases List.mem_cons.mp h with h' | h'
      · rw [h']; norm_num [Process.init]
      · simp at h')

/-! ### Pointwise behaviour of the passes (claims C4, C5, C6) -/

theorem memPass_rel (ps : List Process) : ∀ m : ℚ,
    List.Forall₂ (fun p q =>
      q.pid = p.pid ∧ q.name = p.name ∧ q.cpu_request = p.cpu_request ∧
      q.mem_request = p.mem_request ∧ q.progress = p.progress ∧
      (p.state = PState.Completed → q = p) ∧
      (p.state ≠ PState.Completed →
        q.state = PState.Ready ∨ q.state = PState.Waiting))
      ps (memPass m ps) := by
  induction ps with
  | nil => intro m; exact List.Forall₂.nil
  | cons p rest ih =>
    intro m
    by_cases h1 : p.state = PState.Completed
    · rw [show memPass m (p :: rest) = p :: memPass m rest from by
        simp [memPass, h1]]
      exact List.Forall₂.cons (by simp [h1]) (ih m)
    · by_cases h2 : m + p.mem_request > total_memory_mb
      · rw [show memPass m (p :: rest) =
            { p with state := PState.Waiting } :: memPass m rest from by
          simp [memPass, h1, h2]]
        exact List.Forall₂.cons (by simp [h1]) (ih m)
      · rw [show memPass m (p :: rest) =
            { p with state := PState.Ready } ::
              memPass (m + p.mem_request) rest from by
          simp [memPass, h1, h2]]
        exact List.Forall₂.cons (by simp [h1]) (ih _)

theorem cpuPass_rel (l : List Process) : ∀ c : ℚ,
    List.Forall₂ (fun p qa =>
      qa.1.pid = p.pid ∧ qa.1.name = p.name ∧
      qa.1.cpu_request = p.cpu_request ∧ qa.1.mem_request = p.mem_request ∧
      qa.1.progress = p.progress ∧
      (qa.2 = 0 ∨ qa.2 = p.cpu_request) ∧
      (p.state ≠ PState.Ready → qa = (p, 0)))
      l (cpuPass c l) := by
  induction l with
  | nil => intro c; exact List.Forall₂.nil
  | cons p rest ih =>
    intro c
    by_cases h1 : p.state = PState.Ready
    · by_cases h2 : c + p.cpu_request ≤ 100
      · rw [show cpuPass c (p :: rest) =
            ({ p with state := PState.Running }, p.cpu_request) ::
              cpuPass (c + p.cpu_request) rest from by simp [cpuPass, h1, h2]]
        exact List.Forall₂.cons (by simp [h1]) (ih _)
      · rw [show cpuPass c (p :: rest) = (p, 0) :: cpuPass c rest from by
          simp [cpuPass, h1, h2]]
        exact List.Forall₂.cons (by simp [h1]) (ih c)
    · rw [show cpuPass c (p :: rest) = (p, 0) :: cpuPass c rest from by
        simp [cpuPass, h1]]
      exact List.Forall₂.cons (by simp [h1]) (ih c)

theorem progressPass_rel (l : List (Process × ℚ)) :
    List.Forall₂ (fun pa qb =>
      qb.2 = pa.2 ∧ qb.1.pid = pa.1.pid ∧ qb.1.name = pa.1.name ∧
      qb.1.cpu_request = pa.1.cpu_request ∧ qb.1.mem_request = pa.1.mem_request ∧
      (pa.1.state ≠ PState.Running → qb = pa) ∧
      (pa.1.state = PState.Running →
        qb.1.progress = min 100 (pa.1.progress + pa.2 * scale)))
      l (progressPass l) := by
  induction l with
  | nil => exact List.Forall₂.nil
  | cons pa rest ih =>
    obtain ⟨p, a⟩ := pa
    by_cases h1 : p.state = PState.Running
    · rw [show progressPass ((p, a) :: rest) =
          ({ p with progress := min 100 (p.progress + a * scale),
                    state := if min 100 (p.progress + a * scale) ≥ 100
                             then PState.Completed
                             else PState.Running }, a) ::
            progressPass rest from by simp [progressPass, h1]]
      exact List.Forall₂.cons (by simp [h1]) ih
    · rw [show progressPass ((p, a) :: rest) = (p, a) :: progressPass rest from by
        simp [progressPass, h1]]
      exact List.Forall₂.cons (by simp [h1]) ih

/-- C4: progress never decreases across a tick and never exceeds 100
(and a freshly created process starts at progress 0), provided the
snapshot's CPU requests are nonnegative and its progress values are at
most 100 — both hold along any run started from freshly added processes. -/
theorem tick_progress_monotone (ps : List Process)
    (hc : ∀ p ∈ ps, 0 ≤ p.cpu_request)
    (hp100 : ∀ p ∈ ps, p.progress ≤ 100) :
    (∀ (pid : Nat) (name : String) (c m : ℚ),
      (Process.init pid name c m).progress = 0) ∧
    ∀ (i : Nat) (p q : Process), ps[i]? = some p → (tickFst ps)[i]? = some q →
      p.progress ≤ q.progress ∧ q.progress ≤ 100 := by
  refine ⟨fun pid name c m => rfl, ?_⟩
  intro i p q hp hq
  have hpmem : p ∈ ps := List.getElem?_mem hp
  have hple : p.progress ≤ 100 := hp100 p hpmem
  have hpc : 0 ≤ p.cpu_request := hc p hpmem
  have hi : i < ps.length := by
    rcases List.getElem?_eq_some.mp hp with ⟨h, _⟩
    exact h
  have hi1 : i < (memPass 0 ps).length := by rw [memPass_length]; exact hi
  have hi2 : i < (cpuPass 0 (memPass 0 ps)).length := by
    rw [cpuPass_length, memPass_length]; exact hi
  have hi3 : i < (tick ps).length := by rw [tick_length]; exact hi
  have hq1 : (memPass 0 ps)[i]? = some ((memPass 0 ps).get ⟨i, hi1⟩) := by
    simp
  have hq2 : (cpuPass 0 (memPass 0 ps))[i]? =
      some ((cpuPass 0 (memPass 0 ps)).get ⟨i, hi2⟩) := by simp
  have hq3 : (tick ps)[i]? = some ((tick ps).get ⟨i, hi3⟩) := by simp
  have r1 := forall₂_getElem_some (memPass_rel ps 0) i p _ hp hq1
  have r2 := forall₂_getElem_some (cpuPass_rel (memPass 0 ps) 0) i _ _ hq1 hq2
  have r3 := forall₂_getElem_some (progressPass_rel (cpuPass 0 (memPass 0 ps)))
    i _ _ hq2 hq3
  have hqv : ((tick ps).get ⟨i, hi3⟩).1 = q := by
    rw [tickFst] at hq
    rw [List.getElem?_map, hq3] at hq
    simpa using hq
  obtain ⟨_, _, hcpu1, _, hprog1, _, _⟩ := r1
  obtain ⟨_, _, hcpu2, _, hprog2, halloc2, _⟩ := r2
  obtain ⟨_, _, _, _, _, hnr3, hr3⟩ := r3
  by_cases hrun : ((cpuPass 0 (memPass 0 ps)).get ⟨i, hi2⟩).1.state = PState.Running
  · have hmin := hr3 hrun
    have hscale : (0 : ℚ) ≤ scale := by norm_num [scale]
    have ha : 0 ≤ ((cpuPass 0 (memPass 0 ps)).get ⟨i, hi2⟩).2 := by
      rcases halloc2 with h0 | hreq
      · rw [h0]
      · rw [hreq, hcpu1]; exact hpc
    have hpp : ((cpuPass 0 (memPass 0 ps)).get ⟨i, hi2⟩).1.progress = p.progress := by
      rw [hprog2, hprog1]
    rw [← hqv, hmin, hpp]
    constructor
    · exact le_min hple (by nlinarith)
    · exact min_le_left _ _
  · have := hnr3 hrun
    rw [← hqv, this, hprog2, hprog1]
    exact ⟨le_refl _, hple⟩

/-- Witness for C4 at a concrete snapshot. -/
theorem tick_progress_monotone_witness :
    (∀ (pid : Nat) (name : String) (c m : ℚ),
      (Process.init pid name c m).progress = 0) ∧
    ∀ (i : Nat) (p q : Process),
      [Process.init 1001 "A" 40 256][i]? = some p →
      (tickFst [Process.init 1001 "A" 40 256])[i]? = some q →
      p.progress ≤ q.progress ∧ q.progress ≤ 100 :=
  tick_progress_monotone [Process.init 1001 "A" 40 256]
    (by
      intro p hp
      rcases List.mem_cons.mp hp with h | h
      · rw [h]; norm_num [Process.init]
      · simp at h)
    (by
      intro p hp
      rcases List.mem_cons.mp hp with h | h
      · rw [h]; norm_num [Process.init]
      · simp at h)

theorem tick_completed_fixed (ps : List Process) (i : Nat) (p : Process)
    (hp : ps[i]? = some p) (hstate : p.state = PState.Completed) :
    (tick ps)[i]? = some (p, 0) := by
  have hi : i < ps.length := by
    rcases List.getElem?_eq_some.mp hp with ⟨h, _⟩
    exact h
  have hi1 : i < (memPass 0 ps).length := by rw [memPass_length]; exact hi
  have hi2 : i < (cpuPass 0 (memPass 0 ps)).length := by
    rw [cpuPass_length, memPass_length]; exact hi
  have hi3 : i < (tick ps).length := by rw [tick_length]; exact hi
  have hq1 : (memPass 0 ps)[i]? = some ((memPass 0 ps).get ⟨i, hi1⟩) := by simp
  have hq2 : (cpuPass 0 (memPass 0 ps))[i]? =
      some ((cpuPass 0 (memPass 0 ps)).get ⟨i, hi2⟩) := by simp
  have hq3 : (tick ps)[i]? = some ((tick ps).get ⟨i, hi3⟩) := by simp
  have r1 := forall₂_getElem_some (memPass_rel ps 0) i p _ hp hq1
  have r2 := forall₂_getElem_some (cpuPass_rel (memPass 0 ps) 0) i _ _ hq1 hq2
  have r3 := forall₂_getElem_some (progressPass_rel (cpuPass 0 (memPass 0 ps)))
    i _ _ hq2 hq3
  obtain ⟨_, _, _, _, _, hcomp1, _⟩ := r1
  have e1 : (memPass 0 ps).get ⟨i, hi1⟩ = p := hcomp1 hstate
  obtain ⟨_, _, _, _, _, _, hnr2⟩ := r2
  have e2 : (cpuPass 0 (memPass 0 ps)).get ⟨i, hi2⟩ = (p, 0) := by
    rw [e1] at hnr2
    exact hnr2 (by rw [hstate]; simp)
  obtain ⟨_, _, _, _, _, hnr3, _⟩ := r3
  have e3 : (tick ps).get ⟨i, hi3⟩ = (p, 0) := by
    rw [e2] at hnr3
    exact hnr3 (by dsimp only; rw [hstate]; simp)
  rw [hq3, e3]

/-- C5: a process that is Completed at the start of a tick is left fully
unchanged by that tick and by every subsequent tick, and each such tick
reports 0 CPU allocated to it (Completed is terminal). -/
theorem completed_terminal (ps : List Process) (i : Nat) (p : Process)
    (hp : ps[i]? = some p) (hstate : p.state = PState.Completed) :
    ∀ n : Nat, (tickFst^[n] ps)[i]? = some p ∧
      (tick (tickFst^[n] ps))[i]? = some (p, 0) := by
  intro n
  induction n with
  | zero => exact ⟨hp, tick_completed_fixed ps i p hp hstate⟩
  | succ n ih =>
    have hstep : (tickFst (tickFst^[n] ps))[i]? = some p := by
      rw [tickFst, List.getElem?_map, ih.2]
      rfl
    rw [Function.iterate_succ_apply']
    exact ⟨hstep, tick_completed_fixed _ i p hstep hstate⟩

/-- Witness for C5 at a concrete snapshot, two ticks out. -/
theorem completed_terminal_witness :
    (tickFst^[2] [{ Process.init 1001 "C" 50 512 with
        progress := 100, state := PState.Completed }])[0]? =
      some { Process.init 1001 "C" 50 512 with
        progress := 100, state := PState.Completed } ∧
    (tick (tickFst^[2] [{ Process.init 1001 "C" 50 512 with
        progress := 100, state := PState.Completed }]))[0]? =
      some ({ Process.init 1001 "C" 50 512 with
        progress := 100, state := PState.Completed }, 0) :=
  completed_terminal _ 0 _ (by simp) rfl 2

/-! ### Completed processes and resource accounting (claim C6) -/

theorem totalCpu_cons (p : Process) (ps : List Process) :
    totalCpu (p :: ps) =
      (if p.state = PState.Running then p.cpu_request else 0) + totalCpu ps := by
  by_cases h : p.state = PState.Running <;>
    simp [totalCpu, List.filter_cons, h]

/-- Counterexample to C6 as stated: a process that transitions to
Completed during a tick has its per-process tick output report its full
granted CPU, not 0.  Here a lone Running process at progress 97.5 with
`cpu_request = 100` finishes this tick and its row reports allocated CPU
100. -/
theorem completed_alloc_cex :
    ((tick [{ Process.init 1001 "A" 100 0 with
        progress := 195/2, state := PState.Running }]).map
      (fun pa => (pa.1.state, pa.2))) = [(PState.Completed, 100)] ∧
    (100 : ℚ) ≠ 0 := by
  constructor
  · norm_num [tick, memPass, cpuPass, progressPass, Process.init,
      total_memory_mb, scale]
  · norm_num

/-- C6 (amended): a process that is already Completed when the tick
starts reports allocated CPU 0 and memory-used display 0, and Completed
processes are excluded from the aggregate CPU and memory usage sums
(a process that only completes during the tick, however, reports the CPU
granted to it that tick). -/
theorem completed_zero_accounting :
    (∀ (ps : List Process) (i : Nat) (p : Process),
      ps[i]? = some p → p.state = PState.Completed →
      (tick ps)[i]? = some (p, 0) ∧ memDisplay p = 0) ∧
    ∀ ps : List Process,
      totalCpu ps =
        totalCpu (ps.filter (fun p => !(p.state = PState.Completed))) ∧
      totalMem ps =
        totalMem (ps.filter (fun p => !(p.state = PState.Completed))) := by
  constructor
  · intro ps i p hp hstate
    refine ⟨tick_completed_fixed ps i p hp hstate, ?_⟩
    simp [memDisplay, hstate]
  · intro ps
    induction ps with
    | nil => exact ⟨rfl, rfl⟩
    | cons p rest ih =>
      by_cases h : p.state = PState.Completed
      · have hnr : ¬p.state = PState.Running := by rw [h]; simp
        have hnrr : ¬(p.state = PState.Ready ∨ p.state = PState.Running) := by
          rw [h]; simp
        have hfc : List.filter (fun q => !decide (q.state = PState.Completed))
            (p :: rest) =
            List.filter (fun q => !decide (q.state = PState.Completed)) rest :=
          List.filter_cons_of_neg (by simp [h])
        constructor
        · rw [totalCpu_cons, if_neg hnr, hfc, ih.1]
          ring
        · rw [totalMem_cons, if_neg hnrr, hfc, ih.2]
          ring
      · have hfc : List.filter (fun q => !decide (q.state = PState.Completed))
            (p :: rest) =
            p :: List.filter (fun q => !decide (q.state = PState.Completed)) rest :=
          List.filter_cons_of_pos (by simp [h])
        constructor
        · rw [totalCpu_cons, hfc, totalCpu_cons, ih.1]
        · rw [totalMem_cons, hfc, totalMem_cons, ih.2]

/-- Witness for C6 (amended) at a concrete snapshot. -/
theorem completed_zero_accounting_witness :
    ((tick [{ Process.init 1001 "C" 50 512 with
        progress := 100, state := PState.Completed }])[0]? =
      some ({ Process.init 1001 "C" 50 512 with
        progress := 100, state := PState.Completed }, 0) ∧
     memDisplay { Process.init 1001 "C" 50 512 with
        progress := 100, state := PState.Completed } = 0) ∧
    (totalCpu [{ Process.init 1001 "C" 50 512 with
        progress := 100, state := PState.Completed }] =
      totalCpu ([{ Process.init 1001 "C" 50 512 with
        progress := 100, state := PState.Completed }].filter
          (fun p => !(p.state = PState.Completed))) ∧
     totalMem [{ Process.init 1001 "C" 50 512 with
        progress := 100, state := PState.Completed }] =
      totalMem ([{ Process.init 1001 "C" 50 512 with
        progress := 100, state := PState.Completed }].filter
          (fun p => !(p.state = PState.Completed)))) :=
  ⟨completed_zero_accounting.1 _ 0 _ (by simp) rfl,
   completed_zero_accounting.2 _⟩

/-! ### Determinism of the tick (claim C7)

The tick's result is a function of the snapshot's ordered states,
requests and progress values alone: two snapshots agreeing on those
(whatever their pids and names) produce identical resulting states,
progress values and per-tick CPU allocations. -/

/-- The scheduling-relevant observation of a process: its requests,
progress and state. -/
def obs (p : Process) : ℚ × ℚ × ℚ × PState :=
  (p.cpu_request, p.mem_request, p.progress, p.state)

/-- The observation of a tick-output row: the process observation plus
the CPU allocated this tick. -/
def obsPair (pa : Process × ℚ) : (ℚ × ℚ × ℚ × PState) × ℚ :=
  (obs pa.1, pa.2)

theorem obs_fields {p q : Process} (h : obs p = obs q) :
    p.cpu_request = q.cpu_request ∧ p.mem_request = q.mem_request ∧
    p.progress = q.progress ∧ p.state = q.state :=
  ⟨congrArg (fun t => t.1) h, congrArg (fun t => t.2.1) h,
    congrArg (fun t => t.2.2.1) h, congrArg (fun t => t.2.2.2) h⟩

theorem memPass_obs (ps : List Process) :
    ∀ (qs : List Process) (m : ℚ), ps.map obs = qs.map obs →
      (memPass m ps).map obs = (memPass m qs).map obs := by
  induction ps with
  | nil =>
    intro qs m h
    cases qs with
    | nil => rfl
    | cons q qs' => simp at h
  | cons p ps' ih =>
    intro qs m h
    cases qs with
    | nil => simp at h
    | cons q qs' =>
      simp only [List.map_cons, List.cons.injEq] at h
      obtain ⟨hobs, hrest⟩ := h
      obtain ⟨hcpu, hmem, hprog, hstate⟩ := obs_fields hobs
      by_cases h1 : p.state = PState.Completed
      · rw [show memPass m (p :: ps') = p :: memPass m ps' from by
          simp [memPass, h1]]
        rw [show memPass m (q :: qs') = q :: memPass m qs' from by
          simp [memPass, ← hstate, h1]]
        rw [List.map_cons, List.map_cons, hobs, ih qs' m hrest]
      · by_cases h2 : m + p.mem_request > total_memory_mb
        · rw [show memPass m (p :: ps') =
              { p with state := PState.Waiting } :: memPass m ps' from by
            simp [memPass, h1, h2]]
          rw [show memPass m (q :: qs') =
              { q with state := PState.Waiting } :: memPass m qs' from by
            simp [memPass, ← hstate, h1, ← hmem, h2]]
          rw [List.map_cons, List.map_cons, ih qs' m hrest]
          simp [obs, hcpu, hmem, hprog]
        · rw [show memPass m (p :: ps') =
              { p with state := PState.Ready } ::
                memPass (m + p.mem_request) ps' from by simp [memPass, h1, h2]]
          rw [show memPass m (q :: qs') =
              { q with state := PState.Ready } ::
                memPass (m + q.mem_request) qs' from by
            simp [memPass, ← hstate, h1, ← hmem, h2]]
          rw [List.map_cons, List.map_cons, ← hmem, ih qs' (m + p.mem_request) hrest]
          simp [obs, hcpu, hmem, hprog]

theorem cpuPass_obs (l : List Process) :
    ∀ (l' : List Process) (c : ℚ), l.map obs = l'.map obs →
      (cpuPass c l).map obsPair = (cpuPass c l').map obsPair := by
  induction l with
  | nil =>
    intro l' c h
    cases l' with
    | nil => rfl
    | cons q qs' => simp at h
  | cons p ps' ih =>
    intro l' c h
    cases l' with
    | nil => simp at h
    | cons q qs' =>
      simp only [List.map_cons, List.cons.injEq] at h
      obtain ⟨hobs, hrest⟩ := h
      obtain ⟨hcpu, hmem, hprog, hstate⟩ := obs_fields hobs
      by_cases h1 : p.state = PState.Ready
      · by_cases h2 : c + p.cpu_request ≤ 100
        · rw [show cpuPass c (p :: ps') =
              ({ p with state := PState.Running }, p.cpu_request) ::
                cpuPass (c + p.cpu_request) ps' from by simp [cpuPass, h1, h2]]
          rw [show cpuPass c (q :: qs') =
              ({ q with state := PState.Running }, q.cpu_request) ::
                cpuPass (c + q.cpu_request) qs' from by
            simp [cpuPass, ← hstate, h1, ← hcpu, h2]]
          rw [List.map_cons, List.map_cons, ← hcpu, ih qs' (c + p.cpu_request) hrest]
          simp [obsPair, obs, hcpu, hmem, hprog]
        · rw [show cpuPass c (p :: ps') = (p, 0) :: cpuPass c ps' from by
            simp [cpuPass, h1, h2]]
          rw [show cpuPass c (q :: qs') = (q, 0) :: cpuPass c qs' from by
            simp [cpuPass, ← hstate, h1, ← hcpu, h2]]
          rw [List.map_cons, List.map_cons, ih qs' c hrest]
          simp [obsPair, obs, hcpu, hmem, hprog, hstate]
      · rw [show cpuPass c (p :: ps') = (p, 0) :: cpuPass c ps' from by
          simp [cpuPass, h1]]
        rw [show cpuPass c (q :: qs') = (q, 0) :: cpuPass c qs' from by
          simp [cpuPass, ← hstate, h1]]
        rw [List.map_cons, List.map_cons, ih qs' c hrest]
        simp [obsPair, obs, hcpu, hmem, hprog, hstate]

theorem progressPass_obs (l : List (Process × ℚ)) :
    ∀ l' : List (Process × ℚ), l.map obsPair = l'.map obsPair →
      (progressPass l).map obsPair = (progressPass l').map obsPair := by
  induction l with
  | nil =>
    intro l' h
    cases l' with
    | nil => rfl
    | cons qb qs' => simp at h
  | cons pa ps' ih =>
    intro l' h
    cases l' with
    | nil => simp at h
    | cons qb qs' =>
      obtain ⟨p, a⟩ := pa
      obtain ⟨q, b⟩ := qb
      simp only [List.map_cons, List.cons.injEq] at h
      obtain ⟨hobsp, hrest⟩ := h
      have hobs : obs p = obs q := congrArg (fun t => t.1) hobsp
      have hab : a = b := congrArg (fun t => t.2) hobsp
      obtain ⟨hcpu, hmem, hprog, hstate⟩ := obs_fields hobs
      by_cases h1 : p.state = PState.Running
      · rw [show progressPass ((p, a) :: ps') =
            ({ p with progress := min 100 (p.progress + a * scale),
                      state := if min 100 (p.progress + a * scale) ≥ 100
                               then PState.Completed
                               else PState.Running }, a) ::
              progressPass ps' from by simp [progressPass, h1]]
        rw [show progressPass ((q, b) :: qs') =
            ({ q with progress := min 100 (q.progress + b * scale),
                      state := if min 100 (q.progress + b * scale) ≥ 100
                               then PState.Completed
                               else PState.Running }, b) ::
              progressPass qs' from by simp [progressPass, ← hstate, h1]]
        rw [List.map_cons, List.map_cons, ih qs' hrest]
        simp [obsPair, obs, hcpu, hmem, hprog, hab]
      · rw [show progressPass ((p, a) :: ps') = (p, a) :: progressPass ps' from by
          simp [progressPass, h1]]
        rw [show progressPass ((q, b) :: qs') = (q, b) :: progressPass qs' from by
          simp [progressPass, ← hstate, h1]]
        rw [List.map_cons, List.map_cons, ih qs' hrest]
        simp [obsPair, obs, hcpu, hmem, hprog, hstate, hab]

/-- C7: the tick is deterministic and depends only on the ordered
snapshot's states, requests, and prior progress values: two snapshots
that agree on those produce identical resulting states, progress values
and allocated CPU values (no hidden randomness and no dependence on ids
or names). -/
theorem tick_deterministic (ps qs : List Process)
    (h : ps.map obs = qs.map obs) :
    (tick ps).map obsPair = (tick qs).map obsPair := by
  rw [tick, tick]
  exact progressPass_obs _ _ (cpuPass_obs _ _ 0 (memPass_obs ps qs 0 h))

/-- Witness for C7: two snapshots identical up to pid and name. -/
theorem tick_deterministic_witness :
    (tick [Process.init 1001 "A" 10 5]).map obsPair =
      (tick [Process.init 2001 "B" 10 5]).map obsPair :=
  tick_deterministic _ _ rfl

/-! ### The lone-process completion scenario (claim C8) -/

/-- The lone process of the completion scenario:
`cpu_request = 100`, `mem_request = 0`. -/
def loneProc : Process := Process.init 1001 "P" 100 0

theorem tick_lone_step (p : Process) (hc : p.cpu_request = 100)
    (hm : p.mem_request = 0) (hst : p.state ≠ PState.Completed)
    (hlt : p.progress + 15/2 < 100) :
    tick [p] =
      [({ p with progress := p.progress + 15/2, state := PState.Running }, 100)] := by
  have h1 : memPass 0 [p] = [{ p with state := PState.Ready }] := by
    norm_num [memPass, hst, hm, total_memory_mb]
  have h2 : cpuPass 0 [{ p with state := PState.Ready }] =
      [({ p with state := PState.Running }, p.cpu_request)] := by
    norm_num [cpuPass, hc]
  have hmin : min (100 : ℚ) (p.progress + p.cpu_request * scale) =
      p.progress + 15/2 := by
    rw [hc, show (100 : ℚ) * scale = 15/2 from by norm_num [scale]]
    exact min_eq_right (le_of_lt hlt)
  have h3 : progressPass [({ p with state := PState.Running }, p.cpu_request)] =
      [({ p with progress := p.progress + 15/2, state := PState.Running }, p.cpu_request)] := by
    norm_num [progressPass, hmin]
    intro h
    exact absurd h (by linarith)
  rw [tick, h1, h2, h3, hc]

theorem tick_lone_finish (p : Process) (hc : p.cpu_request = 100)
    (hm : p.mem_request = 0) (hst : p.state ≠ PState.Completed)
    (hge : 100 ≤ p.progress + 15/2) :
    tick [p] =
      [({ p with progress := 100, state := PState.Completed }, 100)] := by
  have h1 : memPass 0 [p] = [{ p with state := PState.Ready }] := by
    norm_num [memPass, hst, hm, total_memory_mb]
  have h2 : cpuPass 0 [{ p with state := PState.Ready }] =
      [({ p with state := PState.Running }, p.cpu_request)] := by
    norm_num [cpuPass, hc]
  have hmin : min (100 : ℚ) (p.progress + p.cpu_request * scale) = 100 := by
    rw [hc, show (100 : ℚ) * scale = 15/2 from by norm_num [scale]]
    exact min_eq_left hge
  have h3 : progressPass [({ p with state := PState.Running }, p.cpu_request)] =
      [({ p with progress := 100, state := PState.Completed }, p.cpu_request)] := by
    norm_num [progressPass, hmin]
  rw [tick, h1, h2, h3, hc]

theorem lone_progress (n : Nat) (hn : n ≤ 13) :
    tickFst^[n] [loneProc] =
      [{ loneProc with
          progress := (15/2 : ℚ) * (n : ℚ),
          state := if n = 0 then PState.Ready else PState.Running }] := by
  induction n with
  | zero =>
    norm_num [loneProc, Process.init]
  | succ k ih =>
    have hk13 : k ≤ 13 := by omega
    have hkq : (k : ℚ) ≤ 12 := by exact_mod_cast (by omega : k ≤ 12)
    have hlt : (15/2 : ℚ) * (k : ℚ) + 15/2 < 100 := by nlinarith
    rw [Function.iterate_succ_apply', ih hk13, tickFst,
      tick_lone_step _ rfl rfl
        (by by_cases hk0 : k = 0 <;> simp [hk0])
        (by dsimp only; exact hlt)]
    simp only [List.map_cons, List.map_nil]
    have : (15/2 : ℚ) * (k : ℚ) + 15/2 = (15/2 : ℚ) * ((k + 1 : Nat) : ℚ) := by
      push_cast
      ring
    simp [this]

/-- C8: with exact arithmetic and rate 0.075 per allocated-CPU-unit per
tick, a lone process with `cpu_request = 100` and `mem_request = 0` is
granted its full 100 CPU on every tick, advances progress by exactly
7.5 per tick (so it is Ready/Running with progress 7.5·n after n ≤ 13
ticks), and transitions to Completed on exactly the 14th tick, the first
tick at which its clamped progress reaches 100. -/
theorem lone_process_completion :
    (∀ n : Nat, n ≤ 13 →
      tickFst^[n] [loneProc] =
        [{ loneProc with
            progress := (15/2 : ℚ) * (n : ℚ),
            state := if n = 0 then PState.Ready else PState.Running }]) ∧
    tickFst^[14] [loneProc] =
      [{ loneProc with progress := 100, state := PState.Completed }] ∧
    ∀ n : Nat, n < 14 → (tick (tickFst^[n] [loneProc])).map Prod.snd = [100] := by
  refine ⟨fun n hn => lone_progress n hn, ?_, ?_⟩
  · rw [show (14 : Nat) = 13 + 1 from rfl, Function.iterate_succ_apply',
      lone_progress 13 (by norm_num), tickFst,
      tick_lone_finish _ rfl rfl (by simp) (by dsimp only; push_cast; norm_num)]
    simp
  · intro n hn
    have hn13 : n ≤ 13 := by omega
    rw [lone_progress n hn13]
    by_cases hn12 : n ≤ 12
    · have hkq : (n : ℚ) ≤ 12 := by exact_mod_cast hn12
      rw [tick_lone_step _ rfl rfl
        (by by_cases h0 : n = 0 <;> simp [h0])
        (by dsimp only; nlinarith)]
      rfl
    · have hn13e : n = 13 := by omega
      subst hn13e
      rw [tick_lone_finish _ rfl rfl (by simp)
        (by dsimp only; push_cast; norm_num)]
      rfl

/-- Witness for C8 at the 13th and 14th ticks. -/
theorem lone_process_completion_witness :
    tickFst^[13] [loneProc] =
      [{ loneProc with
          progress := (15/2 : ℚ) * ((13 : Nat) : ℚ),
          state := if (13 : Nat) = 0 then PState.Ready else PState.Running }] ∧
    (tick (tickFst^[13] [loneProc])).map Prod.snd = [100] :=
  ⟨lone_process_completion.1 13 (by norm_num),
   lone_process_completion.2.2 13 (by norm_num)⟩

/-! ### Id assignment (claim C9) -/

theorem runEvents_ids (es : List Event) :
    ∀ s : RegState, Event.Reset ∉ es →
      (runEvents s es).2 = List.range' s.next_pid (countAdds es) ∧
      (runEvents s es).1.next_pid = s.next_pid + countAdds es := by
  induction es with
  | nil => intro s _; exact ⟨rfl, rfl⟩
  | cons e es' ih =>
    intro s h
    have hne : Event.Reset ∉ es' := fun hx => h (List.mem_cons_of_mem _ hx)
    cases e with
    | Add name cpu_req mem_req =>
      have he := ih ((applyEvent s (Event.Add name cpu_req mem_req)).1) hne
      have hca : countAdds (Event.Add name cpu_req mem_req :: es') =
          countAdds es' + 1 := by
        simp [countAdds, List.filter_cons]
      have hnp : (applyEvent s (Event.Add name cpu_req mem_req)).1.next_pid =
          s.next_pid + 1 := rfl
      constructor
      · rw [show (runEvents s (Event.Add name cpu_req mem_req :: es')).2 =
            s.next_pid ::
              (runEvents (applyEvent s (Event.Add name cpu_req mem_req)).1 es').2
            from rfl]
        rw [he.1, hnp, hca, List.range'_succ]
      · rw [show (runEvents s (Event.Add name cpu_req mem_req :: es')).1 =
            (runEvents (applyEvent s (Event.Add name cpu_req mem_req)).1 es').1
            from rfl]
        rw [he.2, hnp, hca]
        omega
    | Remove pid =>
      have he := ih ((applyEvent s (Event.Remove pid)).1) hne
      have hca : countAdds (Event.Remove pid :: es') = countAdds es' := by
        simp [countAdds, List.filter_cons]
      have hnp : (applyEvent s (Event.Remove pid)).1.next_pid = s.next_pid := rfl
      constructor
      · rw [show (runEvents s (Event.Remove pid :: es')).2 =
            (runEvents (applyEvent s (Event.Remove pid)).1 es').2 from rfl]
        rw [he.1, hnp, hca]
      · rw [show (runEvents s (Event.Remove pid :: es')).1 =
            (runEvents (applyEvent s (Event.Remove pid)).1 es').1 from rfl]
        rw [he.2, hnp, hca]
    | Reset => exact absurd (List.mem_cons_self _ _) h

/-- C9: within a run the `Add` events are assigned the consecutive,
strictly increasing ids 1001, 1002, ... (so ids are never reused, even
after a removal), and a Reset restores the id counter to 1001. -/
theorem id_assignment (es : List Event) (h : Event.Reset ∉ es) :
    (runEvents initState es).2 = List.range' 1001 (countAdds es) ∧
    List.Pairwise (· < ·) (runEvents initState es).2 ∧
    ∀ s : RegState, (reset_all s).next_pid = 1001 := by
  have hr := runEvents_ids es initState h
  refine ⟨hr.1, ?_, fun s => rfl⟩
  rw [hr.1]
  exact List.pairwise_lt_range' 1001 (countAdds es)

/-- Witness for C9: two adds with a removal in between. -/
theorem id_assignment_witness :
    (runEvents initState [Event.Add "A" 10 256, Event.Remove 1001,
        Event.Add "B" 20 512]).2 =
      List.range' 1001 (countAdds [Event.Add "A" 10 256, Event.Remove 1001,
        Event.Add "B" 20 512]) ∧
    List.Pairwise (· < ·) (runEvents initState [Event.Add "A" 10 256,
      Event.Remove 1001, Event.Add "B" 20 512]).2 ∧
    ∀ s : RegState, (reset_all s).next_pid = 1001 :=
  id_assignment _ (by simp)

/-! ### Add performs no capacity check (claim C10) -/

/-- C10: `add_process` never checks capacity: whatever the current
registry state, the new process is appended with state Ready and
progress 0.  Consequently, right after two maximal adds the Ready
memory-request sum is 4096, above the 2048 cap: the cap only holds at
tick boundaries. -/
theorem add_no_capacity_check :
    (∀ (s : RegState) (name : String) (cpu_req mem_req : ℚ),
      (add_process s name cpu_req mem_req).1.processes =
        s.processes ++ [Process.init s.next_pid name cpu_req mem_req] ∧
      (Process.init s.next_pid name cpu_req mem_req).state = PState.Ready ∧
      (Process.init s.next_pid name cpu_req mem_req).progress = 0) ∧
    totalMem ((add_process (add_process initState "A" 10 2048).1
        "B" 10 2048).1.processes) = 4096 ∧
    (2048 : ℚ) < 4096 := by
  refine ⟨fun s name cpu_req mem_req => ⟨rfl, rfl, rfl⟩, ?_, by norm_num⟩
  norm_num [add_process, initState, totalMem, Process.init]
